import Mathlib

/-!
Verification of the Sh4d0wDB hybrid-retrieval backends.

The embedding follows the Python sources under src/backends/:
  - postgres.py / sqlite.py : PostgresBackend._rrf and SQLiteBackend._rrf are
    the same algorithm line for line; one Lean model (rrf below) covers both.
  - mysql.py : MySQLBackend.search and MySQLBackend._like_fallback.
  - sqlite.py : SQLiteBackend._connect (the sqlite-vec capability probe) and
    the two search legs of SQLiteBackend.search.
  - startup() of all three backends.

Modelling conventions:
  - Python dicts are insertion-ordered association lists (CPython guarantees
    insertion order); d[k] = v updates in place or appends, d.setdefault
    appends only when the key is absent.
  - Python floats are modelled as exact rationals: score arithmetic in _rrf
    is 1.0/(k+rank+1) sums, written here in ℚ.
  - A row id doc_id = str(result["id"]) is modelled by the integer id itself;
    str is injective on the integer ids of the schema, so keying by the id
    and keying by its decimal string are the same map.
  - sorted(..., key=score, reverse=True) is a stable descending sort; it is
    modelled by List.insertionSort with the relation scoreDesc below, which
    is stable in exactly Python's sense (ties keep first-appearance order).
  - Fields that a row dict may lack (title, summary, cat, src read through
    dict.get(key, "")) are modelled as Option String, with getD "" playing
    the role of .get(key, "").
-/

namespace ShadowDB

/-- One entry of a Python dict with Nat keys: the dict is the whole list,
in insertion order. dictGet? is d.get(k); dictSet is d[k] = v (update in
place, append when new); dictSetD is d.setdefault(k, v). -/
def dictGet? {β : Type} : List (Nat × β) → Nat → Option β
  | [], _ => none
  | (k, v) :: d, i => if k = i then some v else dictGet? d i

/-- Python d[k] = v on an insertion-ordered dict. -/
def dictSet {β : Type} : List (Nat × β) → Nat → β → List (Nat × β)
  | [], i, v => [(i, v)]
  | (k, w) :: d, i, v => if k = i then (k, v) :: d else (k, w) :: dictSet d i v

/-- Python d.setdefault(k, v) on an insertion-ordered dict. -/
def dictSetD {β : Type} : List (Nat × β) → Nat → β → List (Nat × β)
  | [], i, v => [(i, v)]
  | (k, w) :: d, i, v => if k = i then (k, w) :: d else (k, w) :: dictSetD d i v

/-- The keys of the dict, in insertion order. -/
def keysOf {β : Type} (d : List (Nat × β)) : List Nat := d.map Prod.fst

/-- Python scores.get(doc_id, 0). -/
def dictGetD (d : List (Nat × ℚ)) (i : Nat) : ℚ := (dictGet? d i).getD 0

/-- A candidate row as one leg's SQL query hands it to _rrf: the selected
columns id, c (truncated content), cat, title, summary, src. Native
rank/distance scores are dropped before fusion ever reads them. -/
structure Row where
  id : Nat
  c : String
  cat : Option String
  title : Option String
  summary : Option String
  src : Option String
deriving DecidableEq

/-- One record of the standard result format built at the end of _rrf. -/
structure Out where
  id : Nat
  score : ℚ
  title : String
  summary : String
  cat : String
  src : String
  content : String
deriving DecidableEq

/-- The RRF contribution 1.0 / (k + rank + 1) of rank position rank. -/
def rrfContrib (k rank : Nat) : ℚ := 1 / (k + rank + 1)

/-- The two dicts _rrf builds: scores (doc_id to cumulative RRF score) and
cache (doc_id to result dict). -/
structure RRFState where
  scores : List (Nat × ℚ)
  cache : List (Nat × Row)

/-- One of the two scoring loops of _rrf: for rank, result in enumerate(l),
add 1/(k+rank+1) into scores and update the cache with upd (dictSet for the
fts loop, dictSetD for the vector loop). -/
def scoreLoop (k : Nat) (upd : List (Nat × Row) → Nat → Row → List (Nat × Row)) :
    List Row → Nat → RRFState → RRFState
  | [], _, st => st
  | r :: rs, rank, st =>
      scoreLoop k upd rs (rank + 1)
        ⟨dictSet st.scores r.id (dictGetD st.scores r.id + rrfContrib k rank),
         upd st.cache r.id r⟩

/-- The state of _rrf after both loops: fts_results scored first with
cache[doc_id] = result, then vector_results with cache.setdefault. -/
def rrfState (fts_results vector_results : List Row) (k : Nat) : RRFState :=
  scoreLoop k (fun c i r => dictSetD c i r) vector_results 0
    (scoreLoop k (fun c i r => dictSet c i r) fts_results 0 ⟨[], []⟩)

/-- The fused score of an id: scores lookup with default 0. -/
def rrfScore (fts_results vector_results : List Row) (k i : Nat) : ℚ :=
  dictGetD (rrfState fts_results vector_results k).scores i

/-- The comparison of sorted(scores.items(), key=lambda x: x[1], reverse=True):
a may stay before b when b's score does not exceed a's. A stable sort under
this relation is exactly Python's stable descending sort. -/
def scoreDesc (a b : Nat × ℚ) : Prop := b.2 ≤ a.2

instance : DecidableRel scoreDesc := fun a b => inferInstanceAs (Decidable (b.2 ≤ a.2))

instance : IsTotal (Nat × ℚ) scoreDesc := ⟨fun a b => le_total b.2 a.2⟩

instance : IsTrans (Nat × ℚ) scoreDesc := ⟨fun _ _ _ h1 h2 => le_trans h2 h1⟩

/-- The ranked list of _rrf: sorted by descending cumulative score, stably,
then cut to the first n. -/
def rrfRanked (fts_results vector_results : List Row) (n k : Nat) : List (Nat × ℚ) :=
  ((rrfState fts_results vector_results k).scores.insertionSort scoreDesc).take n

/-- Python round(score, 6), in the exact-rational model (round half up). -/
def round6 (q : ℚ) : ℚ := (round (q * 1000000) : ℤ) / 1000000

/-- A placeholder row for the unreachable cache miss (Python would raise
KeyError; every ranked id is a cache key, proved below). -/
def defaultRow : Row := ⟨0, "", none, none, none, none⟩

/-- Python cache[doc_id]. -/
def cacheGet (c : List (Nat × Row)) (i : Nat) : Row := (dictGet? c i).getD defaultRow

/-- The output record _rrf appends for one ranked (doc_id, score) pair. -/
def mkOut (r : Row) (score : ℚ) : Out :=
  ⟨r.id, round6 score, r.title.getD "", r.summary.getD "", r.cat.getD "", r.src.getD "", r.c⟩

/-- PostgresBackend._rrf and SQLiteBackend._rrf (identical code): fuse the
two candidate lists by Reciprocal Rank Fusion and return the top n records. -/
def rrf (fts_results vector_results : List Row) (n : Nat) (k : Nat := 60) : List Out :=
  (rrfRanked fts_results vector_results n k).map
    (fun p => mkOut (cacheGet (rrfState fts_results vector_results k).cache p.1) p.2)

/-- The total RRF contribution an id collects from one list scanned from a
given start rank: sum of 1/(k+rank+1) over the positions holding that id. -/
def contribFrom (k i : Nat) : List Row → Nat → ℚ
  | [], _ => 0
  | r :: rs, rank => (if r.id = i then rrfContrib k rank else 0) + contribFrom k i rs (rank + 1)

/-- A row used to build small concrete inputs in witnesses. -/
def wRow (i : Nat) : Row := ⟨i, "", none, none, none, none⟩

/-- The ids of both candidate lists in processing order: the lexical (fts)
list is processed into the maps before the vector list. -/
def idsOf (fts_results vector_results : List Row) : List Nat :=
  (fts_results ++ vector_results).map Row.id

/-- The position at which an id is first processed by _rrf (its first
occurrence in the concatenated ids, lexical list first). -/
def firstIdx (fts_results vector_results : List Row) (i : Nat) : Nat :=
  (idsOf fts_results vector_results).indexOf i

/-- First-occurrence accumulation: the key order a Python dict ends up with
after inserting the given ids in order (existing keys keep their slot, new
keys are appended). -/
def firstKeys (acc : List Nat) (ids : List Nat) : List Nat :=
  ids.foldl (fun ks i => if i ∈ ks then ks else ks ++ [i]) acc

/-- The number of distinct ids across both candidate lists. -/
def uniqueIdCount (fts_results vector_results : List Row) : Nat :=
  (idsOf fts_results vector_results).dedup.length

/-- The scores list the fts loop alone builds when all ids are fresh:
each row in order, paired with its rank contribution. -/
def buildScores (k : Nat) : List Row → Nat → List (Nat × ℚ)
  | [], _ => []
  | r :: rs, rank => (r.id, rrfContrib k rank) :: buildScores k rs (rank + 1)

/-- A row of the MySQL memories table (mysql.py schema): id, title, summary,
content, content_pyramid, category, source_file. TEXT columns are Option
(NULL is none). -/
structure MemRow where
  id : Nat
  title : Option String
  summary : Option String
  content : Option String
  content_pyramid : Option String
  category : Option String
  source_file : Option String
deriving DecidableEq

/-- A row as MySQLBackend.search reads it back from SQL (the selected
columns id, c, cat, title, summary, src, score); every field goes through
row.get(...) in the Python, hence Option. -/
structure MRow where
  id : Option Nat
  c : Option String
  cat : Option String
  title : Option String
  summary : Option String
  src : Option String
  score : Option ℚ
deriving DecidableEq

/-- Containment of a character sequence: the needle is a prefix of some
suffix of the haystack. -/
def containsSeq (needle : List Char) : List Char → Bool
  | [] => List.isPrefixOf needle []
  | c :: rest => List.isPrefixOf needle (c :: rest) || containsSeq needle rest

/-- SQL column LIKE CONCAT of percent signs around the query: the query text
occurs as a substring of the column; a NULL column never matches. -/
def likeContains (col : Option String) (q : String) : Bool :=
  match col with
  | none => false
  | some s => containsSeq q.toList s.toList

/-- The category filter clause AND category = %s (absent when no category
was requested); a NULL category never equals a requested one. -/
def categoryOk (r : MemRow) (category : Option String) : Bool :=
  match category with
  | none => true
  | some c => r.category == some c

/-- The content expression: content when full, else
COALESCE(content_pyramid, content). -/
def contentField (r : MemRow) (full : Bool) : Option String :=
  if full then r.content
  else
    match r.content_pyramid with
    | some s => some s
    | none => r.content

/-- SQL LEFT(x, 800): the first 800 characters; NULL stays NULL. -/
def left800 (s : Option String) : Option String := s.map (fun t => t.take 800)

/-- MySQLBackend._like_fallback: LIKE-based scan over the same
category-filtered set, LIMIT n, constant score 1.0 on every match. -/
def likeFallbackRows (table : List MemRow) (q : String) (n : Nat)
    (category : Option String) (full : Bool) : List MRow :=
  ((table.filter (fun r =>
      (likeContains r.title q || likeContains r.content q || likeContains r.summary q)
      && categoryOk r category)).take n).map
    (fun r => ⟨some r.id, left800 (contentField r full), r.category, r.title, r.summary,
      r.source_file, some 1⟩)

/-- The result-shaping loop at the end of MySQLBackend.search: each row is
converted to the standard format, absent fields defaulting to 0 or the
empty string. -/
def mysqlShapeRow (row : MRow) : Out :=
  ⟨row.id.getD 0, round6 (row.score.getD 0), row.title.getD "", row.summary.getD "",
   row.cat.getD "", row.src.getD "", row.c.getD ""⟩

/-- The shaping of a whole result list in MySQLBackend.search. -/
def mysqlShape (rows : List MRow) : List Out := rows.map mysqlShapeRow

/-- MySQLBackend.search after the SQL layer: the FULLTEXT query either
returns rows or raises; on the exception the LIKE fallback runs over the
table; either way the rows are shaped into the standard format and no error
escapes. -/
def mysqlSearch (ftsOutcome : Except Unit (List MRow)) (table : List MemRow)
    (q : String) (n : Nat) (category : Option String) (full : Bool) : List Out :=
  match ftsOutcome with
  | Except.ok rows => mysqlShape rows
  | Except.error _ => mysqlShape (likeFallbackRows table q n category full)

/-- A lexical-leg row used by the payload witness. -/
def pRowL : Row := ⟨5, "lex", none, some "L", none, none⟩

/-- A vector-leg row with the same id, used by the payload witness. -/
def pRowV : Row := ⟨5, "vec", none, some "V", none, none⟩

/-- A memories-table row used by the fallback witness. -/
def fbMemRowDemo : MemRow := ⟨7, some "", none, none, none, none, some "f"⟩

/-- The fallback row the LIKE scan produces for fbMemRowDemo. -/
def fbMRowDemo : MRow := ⟨some 7, none, none, some "", none, some "f", some 1⟩

/-- A row of the SQLite memories table (sqlite.py schema). -/
structure SMemRow where
  id : Nat
  content : Option String
  content_pyramid : Option String
  category : Option String
  title : Option String
  summary : Option String
  source_file : Option String
deriving DecidableEq

/-- The clause AND m.category = ? of the SQLite FTS query (absent when no
category is requested); a NULL category never matches a requested one. -/
def sCategoryOk (r : SMemRow) (category : Option String) : Bool :=
  match category with
  | none => true
  | some c => r.category == some c

/-- ORDER BY an ascending numeric column (FTS5 rank or vec0 distance). -/
def ascBy (f : SMemRow → ℚ) (a b : SMemRow) : Prop := f a ≤ f b

instance (f : SMemRow → ℚ) : DecidableRel (ascBy f) :=
  fun a b => inferInstanceAs (Decidable (f a ≤ f b))

/-- The FTS5 leg of SQLiteBackend.search: rows matching the query under the
category filter, ORDER BY rank, LIMIT 50. The MATCH predicate and the rank
column live inside the SQLite engine and enter the model as parameters. -/
def sqliteFtsLeg (table : List SMemRow) (ftsMatch : SMemRow → Bool) (ftsRank : SMemRow → ℚ)
    (category : Option String) : List SMemRow :=
  ((table.filter (fun r => ftsMatch r && sCategoryOk r category)).insertionSort
    (ascBy ftsRank)).take 50

/-- The vector leg of SQLiteBackend.search: the query joins vec_memories to
memories with WHERE v.embedding MATCH ? ORDER BY v.distance LIMIT 50 and no
other clause — in particular no category filter. hasEmbedding selects the
rows present in vec_memories; distance is the vec0 distance for this query
vector. -/
def sqliteVectorLeg (table : List SMemRow) (hasEmbedding : SMemRow → Bool)
    (distance : SMemRow → ℚ) : List SMemRow :=
  ((table.filter hasEmbedding).insertionSort (ascBy distance)).take 50

/-- The two candidate lists SQLiteBackend.search hands to _rrf: the FTS5
leg always, the vector leg only when sqlite-vec is available and the
embedding call returned a vector. -/
def sqliteSearchLegs (table : List SMemRow) (ftsMatch : SMemRow → Bool)
    (ftsRank : SMemRow → ℚ) (vecAvailable : Bool)
    (embedding : Option (SMemRow → ℚ)) (hasEmbedding : SMemRow → Bool)
    (category : Option String) : List SMemRow × List SMemRow :=
  (sqliteFtsLeg table ftsMatch ftsRank category,
   match vecAvailable, embedding with
   | true, some distance => sqliteVectorLeg table hasEmbedding distance
   | _, _ => [])

/-- Failing-input rows for the category-filter claim: r5a is in the
requested category, r5b is not but sits in embedding range. -/
def r5a : SMemRow := ⟨1, none, none, some "a", none, none, none⟩

/-- The out-of-category row of the failing input. -/
def r5b : SMemRow := ⟨2, none, none, some "b", none, none, none⟩

/-- SQLiteBackend._connect capability handling: the state is
self._vec_available (None before the first probe, some b after), loadOk is
whether loading the vec0 extension succeeds this time (the except branch
records False, it never raises). The second component reports whether this
call ran the probe. -/
def vecProbe (st : Option Bool) (loadOk : Bool) : Option Bool × Bool :=
  match st with
  | none => (some loadOk, true)
  | some b => (some b, false)

/-- A session of repeated _connect calls, threading the cached state and
counting how many of the calls attempted the probe. -/
def vecProbeRun (st : Option Bool) : List Bool → Option Bool × Nat
  | [] => (st, 0)
  | o :: os =>
      let p := vecProbe st o
      let rest := vecProbeRun p.1 os
      (rest.1, (if p.2 then 1 else 0) + rest.2)

/-- A row of the startup table. The postgres schema stores key, content and
priority; the sqlite and mysql startup tables store key and content and
their queries never read a priority column. One row type covers all three
backends. -/
structure StartupRow where
  key : String
  priority : Int
  content : String
deriving DecidableEq

/-- ORDER BY priority, key — the order of the postgres startup query. -/
def startupPK (a b : StartupRow) : Prop :=
  a.priority < b.priority ∨ (a.priority = b.priority ∧ a.key ≤ b.key)

instance : DecidableRel startupPK :=
  fun a b => inferInstanceAs
    (Decidable (a.priority < b.priority ∨ (a.priority = b.priority ∧ a.key ≤ b.key)))

instance : IsTotal StartupRow startupPK :=
  ⟨fun a b => by
    rcases lt_trichotomy a.priority b.priority with h | h | h
    · exact Or.inl (Or.inl h)
    · rcases le_total a.key b.key with hk | hk
      · exact Or.inl (Or.inr ⟨h, hk⟩)
      · exact Or.inr (Or.inr ⟨h.symm, hk⟩)
    · exact Or.inr (Or.inl h)⟩

instance : IsTrans StartupRow startupPK :=
  ⟨fun a b c h1 h2 => by
    rcases h1 with h1 | ⟨he1, hk1⟩
    · rcases h2 with h2 | ⟨he2, _⟩
      · exact Or.inl (lt_trans h1 h2)
      · exact Or.inl (he2 ▸ h1)
    · rcases h2 with h2 | ⟨he2, hk2⟩
      · exact Or.inl (he1 ▸ h2)
      · exact Or.inr ⟨he1.trans he2, le_trans hk1 hk2⟩⟩

/-- ORDER BY key — the order of the sqlite and mysql startup queries. -/
def startupKey (a b : StartupRow) : Prop := a.key ≤ b.key

instance : DecidableRel startupKey :=
  fun a b => inferInstanceAs (Decidable (a.key ≤ b.key))

instance : IsTotal StartupRow startupKey := ⟨fun a b => le_total a.key b.key⟩

instance : IsTrans StartupRow startupKey := ⟨fun _ _ _ h1 h2 => le_trans h1 h2⟩

/-- PostgresBackend.startup: psql prints the content column of SELECT
content FROM startup ORDER BY priority, key one row per line; empty output
(no rows, or a query failure, whose message goes to stderr) yields the
empty string. -/
def pgStartup (res : Except Unit (List StartupRow)) : String :=
  match res with
  | Except.ok rows =>
      String.intercalate "\n" ((rows.insertionSort startupPK).map (fun r => r.content))
  | Except.error _ => ""

/-- The rows sqlite's SELECT content FROM startup ORDER BY key returns. -/
def sqliteStartupRows (rows : List StartupRow) : List StartupRow :=
  rows.insertionSort startupKey

/-- SQLiteBackend.startup: newline-join of the truthy contents in ORDER BY
key order; any exception yields the empty string. -/
def sqliteStartup (res : Except Unit (List StartupRow)) : String :=
  match res with
  | Except.ok rows =>
      String.intercalate "\n"
        (((sqliteStartupRows rows).map (fun r => r.content)).filter (fun c => !(c == "")))
  | Except.error _ => ""

/-- The rows mysql's SELECT content FROM startup ORDER BY key returns. -/
def mysqlStartupRows (rows : List StartupRow) : List StartupRow :=
  rows.insertionSort startupKey

/-- MySQLBackend.startup: newline-join of the truthy contents in ORDER BY
key order; any exception yields the empty string. -/
def mysqlStartup (res : Except Unit (List StartupRow)) : String :=
  match res with
  | Except.ok rows =>
      String.intercalate "\n"
        (((mysqlStartupRows rows).map (fun r => r.content)).filter (fun c => !(c == "")))
  | Except.error _ => ""

/-- Modelled from the spec (§6 boundary contract for startup): the
concatenation of the identity rows ordered by priority then key. -/
def startupSpecText (rows : List StartupRow) : String :=
  String.intercalate "\n" ((rows.insertionSort startupPK).map (fun r => r.content))

/-- A two-row startup table on which key order and priority-then-key order
disagree. -/
def startupDemoRows : List StartupRow := [⟨"a", 2, "X"⟩, ⟨"b", 1, "Y"⟩]

theorem dictGet?_dictSet {β : Type} (d : List (Nat × β)) (k : Nat) (v : β) (i : Nat) :
    dictGet? (dictSet d k v) i = if k = i then some v else dictGet? d i := by
  induction d with
  | nil => simp [dictSet, dictGet?]
  | cons hd tl ih =>
      obtain ⟨k0, w⟩ := hd
      by_cases h0 : k0 = k
      · subst h0
        by_cases hi : k0 = i <;> simp [dictSet, dictGet?, hi]
      · have h0s : ¬ k = k0 := fun h => h0 h.symm
        by_cases hi : k0 = i
        · subst hi
          simp [dictSet, dictGet?, h0, h0s]
        · simp [dictSet, dictGet?, h0, hi, ih]

theorem dictGet?_dictSetD {β : Type} (d : List (Nat × β)) (k : Nat) (v : β) (i : Nat) :
    dictGet? (dictSetD d k v) i =
      if k = i then some ((dictGet? d k).getD v) else dictGet? d i := by
  induction d with
  | nil => simp [dictSetD, dictGet?]
  | cons hd tl ih =>
      obtain ⟨k0, w⟩ := hd
      by_cases h0 : k0 = k
      · subst h0
        by_cases hi : k0 = i <;> simp [dictSetD, dictGet?, hi]
      · have h0s : ¬ k = k0 := fun h => h0 h.symm
        by_cases hi : k0 = i
        · subst hi
          simp [dictSetD, dictGet?, h0, h0s]
        · simp [dictSetD, dictGet?, h0, hi, ih]

theorem scoreLoop_scores_get (k : Nat) (upd : List (Nat × Row) → Nat → Row → List (Nat × Row))
    (l : List Row) (rank : Nat) (st : RRFState) (i : Nat) :
    dictGetD (scoreLoop k upd l rank st).scores i = dictGetD st.scores i + contribFrom k i l rank := by
  induction l generalizing rank st with
  | nil => simp [scoreLoop, contribFrom]
  | cons r rs ih =>
      simp only [scoreLoop, contribFrom]
      rw [ih]
      simp only [dictGetD, dictGet?_dictSet]
      rcases eq_or_ne r.id i with h | h
      · rw [if_pos h, if_pos h, h]
        simp only [Option.getD_some]
        ring
      · rw [if_neg h, if_neg h]
        ring

theorem rrfScore_eq_contrib (fts_results vector_results : List Row) (k i : Nat) :
    rrfScore fts_results vector_results k i =
      contribFrom k i fts_results 0 + contribFrom k i vector_results 0 := by
  rw [rrfScore, rrfState, scoreLoop_scores_get, scoreLoop_scores_get]
  simp [dictGetD, dictGet?]

theorem contribFrom_of_not_mem (k i : Nat) :
    ∀ (l : List Row) (rank : Nat), i ∉ l.map Row.id → contribFrom k i l rank = 0 := by
  intro l
  induction l with
  | nil => intro rank _; simp [contribFrom]
  | cons r rs ih =>
      intro rank h
      simp only [List.map_cons, List.mem_cons, not_or] at h
      simp only [contribFrom]
      rw [if_neg (fun hid => h.1 hid.symm), ih (rank + 1) h.2]
      ring

theorem contribFrom_of_get (k i : Nat) :
    ∀ (l : List Row) (rank : Nat), (l.map Row.id).Nodup →
      ∀ r : Fin l.length, (l.get r).id = i →
      contribFrom k i l rank = rrfContrib k (rank + r.1) := by
  intro l
  induction l with
  | nil =>
      intro rank _ r
      exact absurd r.2 (Nat.not_lt_zero r.1)
  | cons x xs ih =>
      intro rank hl r h
      simp only [List.map_cons, List.nodup_cons] at hl
      rcases r with ⟨j, hj⟩
      cases j with
      | zero =>
          have h0 : x.id = i := h
          have hx : i ∉ xs.map Row.id := by
            rw [← h0]; exact hl.1
          simp only [contribFrom]
          rw [if_pos h0, contribFrom_of_not_mem k i xs (rank + 1) hx]
          simp
      | succ j0 =>
          have hj0 : j0 < xs.length := Nat.lt_of_succ_lt_succ hj
          have hget : (xs.get ⟨j0, hj0⟩).id = i := h
          have hmem : i ∈ xs.map Row.id := by
            rw [← hget]
            exact List.mem_map_of_mem Row.id (xs.get_mem _ _)
          have hx : ¬ x.id = i := fun hid => hl.1 (hid ▸ hmem)
          simp only [contribFrom]
          rw [if_neg hx, ih (rank + 1) hl.2 ⟨j0, hj0⟩ hget]
          have harith : rank + 1 + j0 = rank + (j0 + 1) := by omega
          rw [harith]
          ring

/-- C1: an id appearing only in the lexical (fts) list at 0-based rank r has
fused score exactly 1/(k+r+1); an id appearing in both lists at ranks r1
(lexical) and r2 (vector) has fused score exactly 1/(k+r1+1) + 1/(k+r2+1).
Both contributions accumulate in the one shared scores map of _rrf. -/
theorem rrf_fused_score_formula (fts_results vector_results : List Row) (k i : Nat)
    (hf : (fts_results.map Row.id).Nodup) (hv : (vector_results.map Row.id).Nodup) :
    (∀ r : Fin fts_results.length, (fts_results.get r).id = i →
        i ∉ vector_results.map Row.id →
        rrfScore fts_results vector_results k i = 1 / ((k : ℚ) + r.1 + 1)) ∧
    (∀ (r1 : Fin fts_results.length) (r2 : Fin vector_results.length),
        (fts_results.get r1).id = i → (vector_results.get r2).id = i →
        rrfScore fts_results vector_results k i
          = 1 / ((k : ℚ) + r1.1 + 1) + 1 / ((k : ℚ) + r2.1 + 1)) := by
  constructor
  · intro r hr hnot
    rw [rrfScore_eq_contrib, contribFrom_of_get k i fts_results 0 hf r hr,
      contribFrom_of_not_mem k i vector_results 0 hnot]
    simp [rrfContrib]
  · intro r1 r2 h1 h2
    rw [rrfScore_eq_contrib, contribFrom_of_get k i fts_results 0 hf r1 h1,
      contribFrom_of_get k i vector_results 0 hv r2 h2]
    simp [rrfContrib]

theorem rrf_fused_score_formula_witness :
    rrfScore [wRow 1, wRow 2] [wRow 2] 60 2
      = 1 / ((60 : ℚ) + 1 + 1) + 1 / ((60 : ℚ) + 0 + 1) :=
  (rrf_fused_score_formula [wRow 1, wRow 2] [wRow 2] 60 2 (by decide) (by decide)).2
    ⟨1, by decide⟩ ⟨0, by decide⟩ rfl rfl

theorem keysOf_dictSet {β : Type} (d : List (Nat × β)) (k : Nat) (v : β) :
    keysOf (dictSet d k v) = if k ∈ keysOf d then keysOf d else keysOf d ++ [k] := by
  induction d with
  | nil => simp [dictSet, keysOf]
  | cons hd tl ih =>
      obtain ⟨k0, w⟩ := hd
      simp only [keysOf, List.map_cons] at ih ⊢
      by_cases h0 : k0 = k
      · subst h0
        simp [dictSet]
      · simp only [dictSet, if_neg h0, List.map_cons]
        rw [ih]
        by_cases hm : k ∈ List.map Prod.fst tl
        · rw [if_pos hm, if_pos (List.mem_cons.mpr (Or.inr hm))]
        · have hnm : k ∉ k0 :: List.map Prod.fst tl := by
            have h0s : ¬ k = k0 := fun h => h0 h.symm
            simp [List.mem_cons, h0s, hm]
          rw [if_neg hm, if_neg hnm]
          simp

theorem keysOf_dictSetD {β : Type} (d : List (Nat × β)) (k : Nat) (v : β) :
    keysOf (dictSetD d k v) = if k ∈ keysOf d then keysOf d else keysOf d ++ [k] := by
  induction d with
  | nil => simp [dictSetD, keysOf]
  | cons hd tl ih =>
      obtain ⟨k0, w⟩ := hd
      simp only [keysOf, List.map_cons] at ih ⊢
      by_cases h0 : k0 = k
      · subst h0
        simp [dictSetD]
      · simp only [dictSetD, if_neg h0, List.map_cons]
        rw [ih]
        by_cases hm : k ∈ List.map Prod.fst tl
        · rw [if_pos hm, if_pos (List.mem_cons.mpr (Or.inr hm))]
        · have hnm : k ∉ k0 :: List.map Prod.fst tl := by
            have h0s : ¬ k = k0 := fun h => h0 h.symm
            simp [List.mem_cons, h0s, hm]
          rw [if_neg hm, if_neg hnm]
          simp

theorem firstKeys_nil (acc : List Nat) : firstKeys acc [] = acc := rfl

theorem firstKeys_cons (acc : List Nat) (i : Nat) (ids : List Nat) :
    firstKeys acc (i :: ids) = firstKeys (if i ∈ acc then acc else acc ++ [i]) ids := rfl

theorem firstKeys_append (acc : List Nat) (l1 l2 : List Nat) :
    firstKeys acc (l1 ++ l2) = firstKeys (firstKeys acc l1) l2 :=
  List.foldl_append _ _ _ _

theorem mem_firstKeys (a : Nat) (ids : List Nat) :
    ∀ acc, a ∈ firstKeys acc ids ↔ a ∈ acc ∨ a ∈ ids := by
  induction ids with
  | nil => intro acc; simp [firstKeys_nil]
  | cons i is ih =>
      intro acc
      by_cases hm : i ∈ acc
      · rw [firstKeys_cons, if_pos hm, ih]
        simp only [List.mem_cons]
        constructor
        · rintro (h | h)
          · exact Or.inl h
          · exact Or.inr (Or.inr h)
        · rintro (h | h | h)
          · exact Or.inl h
          · exact Or.inl (h ▸ hm)
          · exact Or.inr h
      · rw [firstKeys_cons, if_neg hm, ih]
        simp only [List.mem_append, List.mem_singleton, List.mem_cons]
        tauto

theorem nodup_firstKeys (ids : List Nat) :
    ∀ acc : List Nat, acc.Nodup → (firstKeys acc ids).Nodup := by
  induction ids with
  | nil => intro acc h; exact h
  | cons i is ih =>
      intro acc h
      rw [firstKeys_cons]
      by_cases hm : i ∈ acc
      · rw [if_pos hm]; exact ih acc h
      · rw [if_neg hm]
        refine ih _ ?_
        simp [List.nodup_append, h, hm]

theorem scoreLoop_scores_keys (k : Nat) (upd : List (Nat × Row) → Nat → Row → List (Nat × Row))
    (l : List Row) (rank : Nat) (st : RRFState) :
    keysOf (scoreLoop k upd l rank st).scores = firstKeys (keysOf st.scores) (l.map Row.id) := by
  induction l generalizing rank st with
  | nil => rfl
  | cons r rs ih =>
      simp only [scoreLoop, List.map_cons, firstKeys_cons]
      rw [ih]
      congr 1
      exact keysOf_dictSet _ _ _

theorem scoreLoop_cache_keys (k : Nat) (upd : List (Nat × Row) → Nat → Row → List (Nat × Row))
    (hupd : ∀ c i r, keysOf (upd c i r) = if i ∈ keysOf c then keysOf c else keysOf c ++ [i])
    (l : List Row) (rank : Nat) (st : RRFState) :
    keysOf (scoreLoop k upd l rank st).cache = firstKeys (keysOf st.cache) (l.map Row.id) := by
  induction l generalizing rank st with
  | nil => rfl
  | cons r rs ih =>
      simp only [scoreLoop, List.map_cons, firstKeys_cons]
      rw [ih]
      congr 1
      exact hupd _ _ _

theorem rrfState_scores_keys (fts_results vector_results : List Row) (k : Nat) :
    keysOf (rrfState fts_results vector_results k).scores
      = firstKeys [] (idsOf fts_results vector_results) := by
  rw [rrfState, scoreLoop_scores_keys, scoreLoop_scores_keys, idsOf, List.map_append,
    firstKeys_append]
  rfl

theorem rrfState_cache_keys (fts_results vector_results : List Row) (k : Nat) :
    keysOf (rrfState fts_results vector_results k).cache
      = firstKeys [] (idsOf fts_results vector_results) := by
  rw [rrfState, scoreLoop_cache_keys k _ (fun c i r => keysOf_dictSetD c i r),
    scoreLoop_cache_keys k _ (fun c i r => keysOf_dictSet c i r), idsOf, List.map_append,
    firstKeys_append]
  rfl

theorem firstKeys_pairwise_indexOf (L : List Nat) :
    ∀ (suf pre : List Nat), pre ++ suf = L →
      (firstKeys [] pre).Pairwise (fun a b => L.indexOf a < L.indexOf b) →
      (firstKeys [] (pre ++ suf)).Pairwise (fun a b => L.indexOf a < L.indexOf b) := by
  intro suf
  induction suf with
  | nil => intro pre _ h; simpa using h
  | cons i is ih =>
      intro pre hL h
      have h2 : (pre ++ [i]) ++ is = L := by
        rw [List.append_assoc]
        simpa using hL
      have key : (firstKeys [] (pre ++ [i])).Pairwise
          (fun a b => L.indexOf a < L.indexOf b) := by
        rw [firstKeys_append]
        by_cases hm : i ∈ firstKeys [] pre
        · rw [firstKeys_cons, if_pos hm, firstKeys_nil]
          exact h
        · rw [firstKeys_cons, if_neg hm, firstKeys_nil]
          apply List.pairwise_append.mpr
          refine ⟨h, List.pairwise_singleton _ _, ?_⟩
          intro a ha b hb
          have hb2 : b = i := by simpa using hb
          subst hb2
          have hapre : a ∈ pre := by
            rcases (mem_firstKeys a pre []).mp ha with h3 | h3
            · exact absurd h3 (List.not_mem_nil a)
            · exact h3
          have hbpre : b ∉ pre := fun hip => hm ((mem_firstKeys b pre []).mpr (Or.inr hip))
          rw [← hL, List.indexOf_append_of_mem hapre, List.indexOf_append_of_not_mem hbpre]
          have hlt : List.indexOf a pre < pre.length := List.indexOf_lt_length.mpr hapre
          simp only [List.indexOf_cons_self]
          omega
      have h3 := ih (pre ++ [i]) h2 key
      rw [List.append_assoc] at h3
      simpa using h3

theorem rrfState_scores_pairwise_firstIdx (fts_results vector_results : List Row) (k : Nat) :
    (rrfState fts_results vector_results k).scores.Pairwise
      (fun p q => firstIdx fts_results vector_results p.1
                    < firstIdx fts_results vector_results q.1) := by
  have hp := firstKeys_pairwise_indexOf (idsOf fts_results vector_results)
    (idsOf fts_results vector_results) [] rfl (by simp [firstKeys_nil])
  simp only [List.nil_append] at hp
  have hkeys := rrfState_scores_keys fts_results vector_results k
  rw [← hkeys] at hp
  rw [keysOf] at hp
  have h4 := List.pairwise_map.mp hp
  exact h4

theorem rrfState_scores_nodup (fts_results vector_results : List Row) (k : Nat) :
    (rrfState fts_results vector_results k).scores.Nodup := by
  have h1 : (keysOf (rrfState fts_results vector_results k).scores).Nodup := by
    rw [rrfState_scores_keys]
    exact nodup_firstKeys _ [] List.nodup_nil
  exact List.Nodup.of_map Prod.fst h1

theorem mem_pair_sublist {α : Type} {a b : α} :
    ∀ {l : List α}, a ∈ l → b ∈ l → a ≠ b →
      [a, b].Sublist l ∨ [b, a].Sublist l := by
  intro l
  induction l with
  | nil => intro h; exact absurd h (List.not_mem_nil a)
  | cons c t ih =>
      intro ha hb hne
      rcases List.mem_cons.mp ha with rfl | ha2
      · have hb2 : b ∈ t := by
          rcases List.mem_cons.mp hb with h | h
          · exact absurd h.symm hne
          · exact h
        exact Or.inl (List.Sublist.cons₂ a (List.singleton_sublist.mpr hb2))
      · rcases List.mem_cons.mp hb with rfl | hb2
        · exact Or.inr (List.Sublist.cons₂ b (List.singleton_sublist.mpr ha2))
        · rcases ih ha2 hb2 hne with h | h
          · exact Or.inl (List.Sublist.cons c h)
          · exact Or.inr (List.Sublist.cons c h)

theorem sublist_pair_indexOf_lt {α : Type} [DecidableEq α] {a b : α} :
    ∀ {l : List α}, l.Nodup → [a, b].Sublist l → a ≠ b →
      l.indexOf a < l.indexOf b := by
  intro l
  induction l with
  | nil => intro _ h; exact absurd h (by simp)
  | cons c t ih =>
      intro hnd hs hne
      rcases List.nodup_cons.mp hnd with ⟨hc, hndt⟩
      cases hs with
      | cons _ h =>
          have ha : a ∈ t := h.subset (by simp)
          have hb : b ∈ t := h.subset (by simp)
          have hac : c ≠ a := fun h2 => hc (h2.symm ▸ ha)
          have hbc : c ≠ b := fun h2 => hc (h2.symm ▸ hb)
          rw [List.indexOf_cons_ne _ hac, List.indexOf_cons_ne _ hbc]
          exact Nat.succ_lt_succ (ih hndt h hne)
      | cons₂ _ h =>
          have hb : b ∈ t := h.subset (by simp)
          rw [List.indexOf_cons_self, List.indexOf_cons_ne _ hne]
          exact Nat.succ_pos _

theorem nodup_no_pair_self {α : Type} [DecidableEq α] {a : α} {l : List α}
    (hnd : l.Nodup) (h : [a, a].Sublist l) : False := by
  have h1 := h.count_le a
  have h2 := List.nodup_iff_count_le_one.mp hnd a
  simp [List.count_cons] at h1
  omega

theorem mem_of_dictGet? {β : Type} :
    ∀ {d : List (Nat × β)} {i : Nat} {v : β}, dictGet? d i = some v → (i, v) ∈ d := by
  intro d
  induction d with
  | nil => intro i v h; exact absurd h (by simp [dictGet?])
  | cons hd tl ih =>
      obtain ⟨k0, w⟩ := hd
      intro i v h
      by_cases h0 : k0 = i
      · rw [dictGet?, if_pos h0] at h
        obtain rfl : w = v := Option.some.inj h
        exact h0 ▸ List.mem_cons_self _ _
      · rw [dictGet?, if_neg h0] at h
        exact List.mem_cons_of_mem _ (ih h)

theorem dictGet?_isSome_of_mem_keys {β : Type} :
    ∀ (d : List (Nat × β)) (i : Nat), i ∈ keysOf d → (dictGet? d i).isSome := by
  intro d
  induction d with
  | nil => intro i h; exact absurd h (by simp [keysOf])
  | cons hd tl ih =>
      obtain ⟨k0, w⟩ := hd
      intro i h
      by_cases h0 : k0 = i
      · rw [dictGet?, if_pos h0]; rfl
      · rw [dictGet?, if_neg h0]
        rcases List.mem_cons.mp h with h1 | h1
        · exact absurd h1.symm h0
        · exact ih i h1

theorem mem_dictSet_elim {β : Type} :
    ∀ (d : List (Nat × β)) (k : Nat) (v : β) (q : Nat × β),
      q ∈ dictSet d k v → q ∈ d ∨ q = (k, v) := by
  intro d
  induction d with
  | nil =>
      intro k v q h
      simp [dictSet] at h
      exact Or.inr h
  | cons hd tl ih =>
      obtain ⟨k0, w⟩ := hd
      intro k v q h
      by_cases h0 : k0 = k
      · rw [dictSet, if_pos h0] at h
        rcases List.mem_cons.mp h with h1 | h1
        · exact Or.inr (h1.trans (by rw [h0]))
        · exact Or.inl (List.mem_cons_of_mem _ h1)
      · rw [dictSet, if_neg h0] at h
        rcases List.mem_cons.mp h with h1 | h1
        · exact Or.inl (h1 ▸ List.mem_cons_self _ _)
        · rcases ih k v q h1 with h2 | h2
          · exact Or.inl (List.mem_cons_of_mem _ h2)
          · exact Or.inr h2

theorem mem_dictSetD_elim {β : Type} :
    ∀ (d : List (Nat × β)) (k : Nat) (v : β) (q : Nat × β),
      q ∈ dictSetD d k v → q ∈ d ∨ q = (k, v) := by
  intro d
  induction d with
  | nil =>
      intro k v q h
      simp [dictSetD] at h
      exact Or.inr h
  | cons hd tl ih =>
      obtain ⟨k0, w⟩ := hd
      intro k v q h
      by_cases h0 : k0 = k
      · rw [dictSetD, if_pos h0] at h
        exact Or.inl h
      · rw [dictSetD, if_neg h0] at h
        rcases List.mem_cons.mp h with h1 | h1
        · exact Or.inl (h1 ▸ List.mem_cons_self _ _)
        · rcases ih k v q h1 with h2 | h2
          · exact Or.inl (List.mem_cons_of_mem _ h2)
          · exact Or.inr h2

theorem mem_scoreLoop_cache (k : Nat) (upd : List (Nat × Row) → Nat → Row → List (Nat × Row))
    (hupd : ∀ c (i : Nat) (r : Row) q, q ∈ upd c i r → q ∈ c ∨ q = (i, r)) :
    ∀ (l : List Row) (rank : Nat) (st : RRFState) (q : Nat × Row),
      q ∈ (scoreLoop k upd l rank st).cache → q ∈ st.cache ∨ ∃ r ∈ l, q = (r.id, r) := by
  intro l
  induction l with
  | nil => intro rank st q h; exact Or.inl h
  | cons x xs ih =>
      intro rank st q h
      rcases ih (rank + 1) _ q h with h1 | h1
      · rcases hupd _ _ _ _ h1 with h2 | h2
        · exact Or.inl h2
        · exact Or.inr ⟨x, List.mem_cons_self _ _, h2⟩
      · obtain ⟨r, hr, hq⟩ := h1
        exact Or.inr ⟨r, List.mem_cons_of_mem _ hr, hq⟩

theorem rrfState_cache_spec (fts_results vector_results : List Row) (k : Nat) :
    ∀ (i : Nat) (v : Row),
      dictGet? (rrfState fts_results vector_results k).cache i = some v →
      v.id = i ∧ (v ∈ fts_results ∨ v ∈ vector_results) := by
  intro i v h
  have hq := mem_of_dictGet? h
  rw [rrfState] at hq
  rcases mem_scoreLoop_cache k _ (fun c i r q => mem_dictSetD_elim c i r q) _ 0 _ _ hq
    with h1 | h1
  · rcases mem_scoreLoop_cache k _ (fun c i r q => mem_dictSet_elim c i r q) _ 0 _ _ h1
      with h2 | h2
    · exact absurd h2 (List.not_mem_nil _)
    · obtain ⟨r, hr, hq2⟩ := h2
      obtain ⟨h3, h4⟩ := Prod.mk.injEq .. ▸ hq2
      exact ⟨by rw [h4, h3], Or.inl (h4 ▸ hr)⟩
  · obtain ⟨r, hr, hq2⟩ := h1
    obtain ⟨h3, h4⟩ := Prod.mk.injEq .. ▸ hq2
    exact ⟨by rw [h4, h3], Or.inr (h4 ▸ hr)⟩

theorem rrf_map_out_id (fts_results vector_results : List Row) (n k : Nat) :
    (rrf fts_results vector_results n k).map Out.id
      = (rrfRanked fts_results vector_results n k).map Prod.fst := by
  rw [rrf, List.map_map]
  apply List.map_congr_left
  intro p hp
  have hp2 : p ∈ (rrfState fts_results vector_results k).scores := by
    have h1 : p ∈ (rrfState fts_results vector_results k).scores.insertionSort scoreDesc :=
      (List.take_sublist n _).subset hp
    exact (List.perm_insertionSort scoreDesc _).subset h1
  have hkey : p.1 ∈ keysOf (rrfState fts_results vector_results k).cache := by
    rw [rrfState_cache_keys, ← rrfState_scores_keys]
    exact List.mem_map_of_mem Prod.fst hp2
  obtain ⟨v, hv⟩ := Option.isSome_iff_exists.mp (dictGet?_isSome_of_mem_keys _ _ hkey)
  have hspec := rrfState_cache_spec fts_results vector_results k p.1 v hv
  show (mkOut (cacheGet (rrfState fts_results vector_results k).cache p.1) p.2).id = p.1
  rw [cacheGet, hv]
  simp [mkOut, hspec.1]

/-- C2: the fused output is sorted by non-increasing cumulative RRF score,
and ids with exactly equal scores appear in the stable order of first
appearance, the lexical list processed before the vector list. The first
conjunct ties the ranked pairs to the records _rrf returns (same ids in the
same order); the second states sortedness and the tie-break on the ranked
pairs themselves. -/
theorem rrf_output_sorted_and_stable (fts_results vector_results : List Row) (n k : Nat) :
    (rrf fts_results vector_results n k).map Out.id
        = (rrfRanked fts_results vector_results n k).map Prod.fst ∧
    (rrfRanked fts_results vector_results n k).Pairwise
      (fun a b => b.2 ≤ a.2 ∧ (a.2 = b.2 →
        firstIdx fts_results vector_results a.1 < firstIdx fts_results vector_results b.1)) := by
  refine ⟨rrf_map_out_id _ _ _ _, ?_⟩
  have hsorted : ((rrfState fts_results vector_results k).scores.insertionSort
      scoreDesc).Pairwise scoreDesc :=
    List.sorted_insertionSort scoreDesc _
  have hnd : (rrfState fts_results vector_results k).scores.Nodup :=
    rrfState_scores_nodup _ _ _
  have hndSorted : ((rrfState fts_results vector_results k).scores.insertionSort
      scoreDesc).Nodup :=
    ((List.perm_insertionSort scoreDesc _).nodup_iff).mpr hnd
  have hstable := rrfState_scores_pairwise_firstIdx fts_results vector_results k
  refine List.Pairwise.sublist (List.take_sublist n _) ?_
  rw [List.pairwise_iff_forall_sublist]
  intro a b hab
  refine ⟨List.pairwise_iff_forall_sublist.mp hsorted hab, ?_⟩
  intro heq
  have hne : a ≠ b := by
    intro h
    subst h
    exact nodup_no_pair_self hndSorted hab
  have ha : a ∈ (rrfState fts_results vector_results k).scores :=
    (List.perm_insertionSort scoreDesc _).subset (hab.subset (by simp))
  have hb : b ∈ (rrfState fts_results vector_results k).scores :=
    (List.perm_insertionSort scoreDesc _).subset (hab.subset (by simp))
  rcases mem_pair_sublist ha hb hne with hsub | hsub
  · exact List.pairwise_iff_forall_sublist.mp hstable hsub
  · exfalso
    have hba : [b, a].Sublist ((rrfState fts_results vector_results k).scores.insertionSort
        scoreDesc) :=
      List.sublist_insertionSort (List.pairwise_pair.mpr (le_of_eq heq)) hsub
    have h1 := sublist_pair_indexOf_lt hndSorted hab hne
    have h2 := sublist_pair_indexOf_lt hndSorted hba (Ne.symm hne)
    omega

theorem length_firstKeys_eq_dedup (ids : List Nat) :
    (firstKeys [] ids).length = ids.dedup.length := by
  have h1 : (firstKeys [] ids).Nodup := nodup_firstKeys ids [] List.nodup_nil
  have h2 : ids.dedup.Nodup := ids.nodup_dedup
  have h3 : (firstKeys [] ids).toFinset = ids.dedup.toFinset := by
    ext a
    simp [List.mem_toFinset, mem_firstKeys a ids [], List.mem_dedup]
  calc (firstKeys [] ids).length
      = (firstKeys [] ids).toFinset.card := (List.toFinset_card_of_nodup h1).symm
    _ = ids.dedup.toFinset.card := by rw [h3]
    _ = ids.dedup.length := List.toFinset_card_of_nodup h2

theorem rrfState_scores_length (fts_results vector_results : List Row) (k : Nat) :
    (rrfState fts_results vector_results k).scores.length
      = uniqueIdCount fts_results vector_results := by
  have h := congrArg List.length (rrfState_scores_keys fts_results vector_results k)
  simp only [keysOf, List.length_map] at h
  rw [h, length_firstKeys_eq_dedup]
  rfl

/-- C3: the fusion output length equals min of the requested n and the
number of unique ids across both candidate lists (so in particular it never
exceeds either); n = 0 yields the empty list for all inputs; and when n is
at least the number of unique ids, every id of either list appears in the
output. -/
theorem rrf_output_length (fts_results vector_results : List Row) (n k : Nat) :
    (rrf fts_results vector_results n k).length
        = min n (uniqueIdCount fts_results vector_results) ∧
    rrf fts_results vector_results 0 k = [] ∧
    (uniqueIdCount fts_results vector_results ≤ n →
      ∀ i ∈ idsOf fts_results vector_results,
        i ∈ (rrf fts_results vector_results n k).map Out.id) := by
  refine ⟨?_, ?_, ?_⟩
  · rw [rrf, List.length_map, rrfRanked, List.length_take, List.length_insertionSort,
      rrfState_scores_length]
  · simp [rrf, rrfRanked]
  · intro hn i hi
    rw [rrf_map_out_id]
    have h1 : i ∈ firstKeys [] (idsOf fts_results vector_results) :=
      (mem_firstKeys i _ []).mpr (Or.inr hi)
    rw [← rrfState_scores_keys fts_results vector_results k, keysOf] at h1
    obtain ⟨p, hp, hpi⟩ := List.mem_map.mp h1
    have hp2 : p ∈ (rrfState fts_results vector_results k).scores.insertionSort scoreDesc :=
      ((List.perm_insertionSort scoreDesc _).mem_iff).mpr hp
    have hlen : ((rrfState fts_results vector_results k).scores.insertionSort
        scoreDesc).length ≤ n := by
      rw [List.length_insertionSort, rrfState_scores_length]
      exact hn
    rw [rrfRanked, List.take_of_length_le hlen]
    exact hpi ▸ List.mem_map_of_mem Prod.fst hp2

theorem dictGet?_eq_none_of_not_mem {β : Type} (d : List (Nat × β)) (i : Nat)
    (h : i ∉ keysOf d) : dictGet? d i = none := by
  cases hs : dictGet? d i with
  | none => rfl
  | some v => exact absurd (List.mem_map_of_mem Prod.fst (mem_of_dictGet? hs)) h

theorem dictSet_of_not_mem {β : Type} :
    ∀ (d : List (Nat × β)) (i : Nat) (v : β), i ∉ keysOf d → dictSet d i v = d ++ [(i, v)] := by
  intro d
  induction d with
  | nil => intro i v _; rfl
  | cons hd tl ih =>
      obtain ⟨k0, w⟩ := hd
      intro i v h
      simp only [keysOf, List.map_cons, List.mem_cons, not_or] at h
      rw [dictSet, if_neg (fun he => h.1 he.symm), ih i v (by simpa [keysOf] using h.2)]
      rfl

theorem scoreLoop_scores_of_disjoint (k : Nat)
    (upd : List (Nat × Row) → Nat → Row → List (Nat × Row)) :
    ∀ (l : List Row) (rank : Nat) (st : RRFState),
      (l.map Row.id).Nodup →
      (∀ i ∈ l.map Row.id, i ∉ keysOf st.scores) →
      (scoreLoop k upd l rank st).scores = st.scores ++ buildScores k l rank := by
  intro l
  induction l with
  | nil => intro rank st _ _; simp [scoreLoop, buildScores]
  | cons x xs ih =>
      intro rank st hnd hdisj
      simp only [List.map_cons, List.nodup_cons] at hnd
      have hx : x.id ∉ keysOf st.scores := hdisj x.id (by simp)
      have hval : dictGetD st.scores x.id + rrfContrib k rank = rrfContrib k rank := by
        rw [dictGetD, dictGet?_eq_none_of_not_mem _ _ hx]
        simp
      simp only [scoreLoop]
      rw [ih (rank + 1) _ hnd.2 ?_]
      · show dictSet st.scores x.id _ ++ _ = _
        rw [hval, dictSet_of_not_mem _ _ _ hx]
        simp [buildScores]
      · intro i hi
        show i ∉ keysOf (dictSet st.scores x.id _)
        rw [keysOf_dictSet, if_neg hx]
        simp only [List.mem_append, List.mem_singleton, not_or]
        exact ⟨hdisj i (List.mem_cons_of_mem _ hi), fun he => hnd.1 (he ▸ hi)⟩

theorem buildScores_map_fst (k : Nat) :
    ∀ (l : List Row) (rank : Nat), (buildScores k l rank).map Prod.fst = l.map Row.id := by
  intro l
  induction l with
  | nil => intro rank; rfl
  | cons x xs ih => intro rank; simp [buildScores, ih (rank + 1)]

theorem buildScores_snd_bound (k : Nat) :
    ∀ (l : List Row) (rank : Nat) (p : Nat × ℚ), p ∈ buildScores k l rank →
      ∃ r2, rank ≤ r2 ∧ p.2 = rrfContrib k r2 := by
  intro l
  induction l with
  | nil => intro rank p h; exact absurd h (List.not_mem_nil p)
  | cons x xs ih =>
      intro rank p h
      rcases List.mem_cons.mp h with rfl | h2
      · exact ⟨rank, le_refl rank, rfl⟩
      · obtain ⟨r2, hr2, hp⟩ := ih (rank + 1) p h2
        exact ⟨r2, by omega, hp⟩

theorem rrfContrib_antitone (k : Nat) {r1 r2 : Nat} (h : r1 ≤ r2) :
    rrfContrib k r2 ≤ rrfContrib k r1 := by
  rw [rrfContrib, rrfContrib]
  have hcast : ((k : ℚ) + r1 + 1) ≤ ((k : ℚ) + r2 + 1) := by
    have hc := (Nat.cast_le (α := ℚ)).mpr h
    linarith
  have hpos : (0 : ℚ) < (k : ℚ) + r1 + 1 := by positivity
  exact one_div_le_one_div_of_le hpos hcast

theorem buildScores_sorted (k : Nat) :
    ∀ (l : List Row) (rank : Nat), (buildScores k l rank).Pairwise scoreDesc := by
  intro l
  induction l with
  | nil => intro rank; exact List.Pairwise.nil
  | cons x xs ih =>
      intro rank
      rw [buildScores, List.pairwise_cons]
      refine ⟨?_, ih (rank + 1)⟩
      intro p hp
      obtain ⟨r2, hr2, hval⟩ := buildScores_snd_bound k xs (rank + 1) p hp
      show p.2 ≤ rrfContrib k rank
      rw [hval]
      exact rrfContrib_antitone k (by omega)

/-- C4: with distinct lexical ids, an empty vector list and n at least the
lexical list's length, the fused output ids are exactly the lexical input
ids in input order (the rank contribution is strictly decreasing in rank,
so a single-leg result set is re-ranked identically to its input order). -/
theorem rrf_single_leg_preserves_order (fts_results : List Row) (n k : Nat)
    (hf : (fts_results.map Row.id).Nodup) (hn : fts_results.length ≤ n) :
    (rrf fts_results [] n k).map Out.id = fts_results.map Row.id := by
  rw [rrf_map_out_id]
  have houter : ∀ st : RRFState,
      scoreLoop k (fun c i r => dictSetD c i r) ([] : List Row) 0 st = st := fun _ => rfl
  have hscores : (rrfState fts_results [] k).scores = buildScores k fts_results 0 := by
    rw [rrfState, houter,
      scoreLoop_scores_of_disjoint k _ fts_results 0 ⟨[], []⟩ hf
        (by intro i _; simp [keysOf])]
    rfl
  rw [rrfRanked, hscores,
    List.Sorted.insertionSort_eq (buildScores_sorted k fts_results 0)]
  have hlenb : (buildScores k fts_results 0).length = fts_results.length := by
    have h2 := congrArg List.length (buildScores_map_fst k fts_results 0)
    simpa using h2
  rw [List.take_of_length_le (by omega), buildScores_map_fst]

theorem rrf_single_leg_preserves_order_witness :
    (rrf [wRow 1, wRow 2] [] 2 60).map Out.id = [1, 2] := by
  have h := rrf_single_leg_preserves_order [wRow 1, wRow 2] 2 60 (by decide) (by decide)
  simpa [wRow] using h

theorem dictGet?_dictSet_ne {β : Type} (c : List (Nat × β)) (j : Nat) (r : β) (i : Nat)
    (h : j ≠ i) : dictGet? (dictSet c j r) i = dictGet? c i := by
  rw [dictGet?_dictSet, if_neg h]

theorem dictGet?_dictSetD_ne {β : Type} (c : List (Nat × β)) (j : Nat) (r : β) (i : Nat)
    (h : j ≠ i) : dictGet? (dictSetD c j r) i = dictGet? c i := by
  rw [dictGet?_dictSetD, if_neg h]

theorem scoreLoop_cache_get_not_mem (k : Nat)
    (upd : List (Nat × Row) → Nat → Row → List (Nat × Row))
    (hupd : ∀ c (j : Nat) (r : Row) (i : Nat), j ≠ i →
      dictGet? (upd c j r) i = dictGet? c i) :
    ∀ (l : List Row) (rank : Nat) (st : RRFState) (i : Nat), i ∉ l.map Row.id →
      dictGet? (scoreLoop k upd l rank st).cache i = dictGet? st.cache i := by
  intro l
  induction l with
  | nil => intro rank st i _; rfl
  | cons x xs ih =>
      intro rank st i h
      simp only [List.map_cons, List.mem_cons, not_or] at h
      simp only [scoreLoop]
      rw [ih (rank + 1) _ i h.2]
      exact hupd _ _ _ _ (fun he => h.1 he.symm)

theorem scoreLoopA_cache_get (k : Nat) :
    ∀ (l : List Row) (rank : Nat) (st : RRFState) (i : Nat) (r : Row),
      (l.map Row.id).Nodup → r ∈ l → r.id = i →
      dictGet? (scoreLoop k (fun c j q => dictSet c j q) l rank st).cache i = some r := by
  intro l
  induction l with
  | nil => intro _ _ _ r _ hr; exact absurd hr (List.not_mem_nil r)
  | cons x xs ih =>
      intro rank st i r hnd hr hid
      simp only [List.map_cons, List.nodup_cons] at hnd
      rcases List.mem_cons.mp hr with rfl | hr2
      · have htail : i ∉ xs.map Row.id := by
          rw [← hid]
          exact hnd.1
        simp only [scoreLoop]
        rw [scoreLoop_cache_get_not_mem k _ (fun c j q i h => dictGet?_dictSet_ne c j q i h)
          xs (rank + 1) _ i htail]
        show dictGet? (dictSet st.cache r.id r) i = some r
        rw [dictGet?_dictSet, if_pos hid]
      · have hmem : i ∈ xs.map Row.id := hid ▸ List.mem_map_of_mem Row.id hr2
        simp only [scoreLoop]
        exact ih (rank + 1) _ i r hnd.2 hr2 hid

theorem scoreLoopB_cache_get_some (k : Nat) :
    ∀ (l : List Row) (rank : Nat) (st : RRFState) (i : Nat) (v : Row),
      dictGet? st.cache i = some v →
      dictGet? (scoreLoop k (fun c j q => dictSetD c j q) l rank st).cache i = some v := by
  intro l
  induction l with
  | nil => intro rank st i v h; exact h
  | cons x xs ih =>
      intro rank st i v h
      simp only [scoreLoop]
      apply ih (rank + 1)
      show dictGet? (dictSetD st.cache x.id x) i = some v
      by_cases he : x.id = i
      · rw [dictGet?_dictSetD, if_pos he, he, h]
        rfl
      · rw [dictGet?_dictSetD_ne _ _ _ _ he]
        exact h

theorem scoreLoopB_cache_get_none (k : Nat) :
    ∀ (l : List Row) (rank : Nat) (st : RRFState) (i : Nat) (r : Row),
      (l.map Row.id).Nodup → r ∈ l → r.id = i →
      dictGet? st.cache i = none →
      dictGet? (scoreLoop k (fun c j q => dictSetD c j q) l rank st).cache i = some r := by
  intro l
  induction l with
  | nil => intro _ _ _ r _ hr; exact absurd hr (List.not_mem_nil r)
  | cons x xs ih =>
      intro rank st i r hnd hr hid h0
      simp only [List.map_cons, List.nodup_cons] at hnd
      rcases List.mem_cons.mp hr with rfl | hr2
      · simp only [scoreLoop]
        apply scoreLoopB_cache_get_some k xs (rank + 1)
        show dictGet? (dictSetD st.cache r.id r) i = some r
        rw [dictGet?_dictSetD, if_pos hid, hid, h0]
        rfl
      · have hmem : i ∈ xs.map Row.id := hid ▸ List.mem_map_of_mem Row.id hr2
        have hxid : x.id ≠ i := fun he => hnd.1 (he ▸ hmem)
        simp only [scoreLoop]
        apply ih (rank + 1) _ i r hnd.2 hr2 hid
        show dictGet? (dictSetD st.cache x.id x) i = none
        rw [dictGet?_dictSetD_ne _ _ _ _ hxid]
        exact h0

/-- C10: when an id is in both candidate lists, the payload fields of the
returned record (title, summary, cat, src, content) come from the lexical
row for that id (cache[doc_id] = result in the fts loop wins over
cache.setdefault in the vector loop); an id absent from the lexical list
takes its payload from the vector row. -/
theorem rrf_payload_from_lexical_leg (fts_results vector_results : List Row) (n k : Nat)
    (hf : (fts_results.map Row.id).Nodup) (hv : (vector_results.map Row.id).Nodup) :
    ∀ o ∈ rrf fts_results vector_results n k,
      (∀ r ∈ fts_results, r.id = o.id →
        o.title = r.title.getD "" ∧ o.summary = r.summary.getD "" ∧
        o.cat = r.cat.getD "" ∧ o.src = r.src.getD "" ∧ o.content = r.c) ∧
      (o.id ∉ fts_results.map Row.id → ∀ r ∈ vector_results, r.id = o.id →
        o.title = r.title.getD "" ∧ o.summary = r.summary.getD "" ∧
        o.cat = r.cat.getD "" ∧ o.src = r.src.getD "" ∧ o.content = r.c) := by
  intro o ho
  rw [rrf, List.mem_map] at ho
  obtain ⟨p, hp, rfl⟩ := ho
  have hp2 : p ∈ (rrfState fts_results vector_results k).scores := by
    have h1 : p ∈ (rrfState fts_results vector_results k).scores.insertionSort scoreDesc :=
      (List.take_sublist n _).subset hp
    exact (List.perm_insertionSort scoreDesc _).subset h1
  have hkey : p.1 ∈ keysOf (rrfState fts_results vector_results k).cache := by
    rw [rrfState_cache_keys, ← rrfState_scores_keys]
    exact List.mem_map_of_mem Prod.fst hp2
  obtain ⟨v, hv2⟩ := Option.isSome_iff_exists.mp (dictGet?_isSome_of_mem_keys _ _ hkey)
  have hvid : v.id = p.1 := (rrfState_cache_spec fts_results vector_results k p.1 v hv2).1
  have hout : mkOut (cacheGet (rrfState fts_results vector_results k).cache p.1) p.2
      = mkOut v p.2 := by
    rw [cacheGet, hv2]
    rfl
  have hoid : (mkOut v p.2).id = p.1 := by
    rw [mkOut]
    exact hvid
  rw [hout]
  constructor
  · intro r hr hreq
    have hreq2 : r.id = p.1 := by rw [hreq, hoid]
    have hA := scoreLoopA_cache_get k fts_results 0 ⟨[], []⟩ p.1 r hf hr hreq2
    have hB := scoreLoopB_cache_get_some k vector_results 0 _ p.1 r hA
    rw [rrfState] at hv2
    rw [hv2] at hB
    obtain rfl : v = r := Option.some.inj hB
    exact ⟨rfl, rfl, rfl, rfl, rfl⟩
  · intro hnot r hr hreq
    have hnot2 : p.1 ∉ fts_results.map Row.id := by
      rw [← hoid]
      exact hnot
    have hreq2 : r.id = p.1 := by rw [hreq, hoid]
    have hA := scoreLoop_cache_get_not_mem k _
      (fun c j q i h => dictGet?_dictSet_ne c j q i h) fts_results 0 ⟨[], []⟩ p.1 hnot2
    have hB := scoreLoopB_cache_get_none k vector_results 0 _ p.1 r hv hr hreq2 hA
    rw [rrfState] at hv2
    rw [hv2] at hB
    obtain rfl : v = r := Option.some.inj hB
    exact ⟨rfl, rfl, rfl, rfl, rfl⟩

theorem rrf_payload_from_lexical_leg_witness :
    (∃ o ∈ rrf [pRowL] [pRowV] 1 60, o.title = "L" ∧ o.content = "lex") ∧
    (∃ o ∈ rrf [] [pRowV] 1 60, o.title = "V" ∧ o.content = "vec") := by
  constructor
  · refine ⟨mkOut pRowL (0 + rrfContrib 60 0 + rrfContrib 60 0), List.mem_singleton_self _, ?_⟩
    have h := rrf_payload_from_lexical_leg [pRowL] [pRowV] 1 60 (by decide) (by decide)
      (mkOut pRowL (0 + rrfContrib 60 0 + rrfContrib 60 0)) (List.mem_singleton_self _)
    have h2 := h.1 pRowL (List.mem_singleton_self _) rfl
    exact ⟨h2.1, h2.2.2.2.2⟩
  · refine ⟨mkOut pRowV (0 + rrfContrib 60 0), List.mem_singleton_self _, ?_⟩
    have h := rrf_payload_from_lexical_leg [] [pRowV] 1 60 (by decide) (by decide)
      (mkOut pRowV (0 + rrfContrib 60 0)) (List.mem_singleton_self _)
    have h2 := h.2 (List.not_mem_nil _) pRowV (List.mem_singleton_self _) rfl
    exact ⟨h2.1, h2.2.2.2.2⟩

/-- C8: result records populate the optional fields title, summary and
source with the empty string rather than null when the underlying row lacks
them: _rrf reads each with result.get(field, ""), and the shaping loop of
MySQLBackend.search does the same, so the output contract is uniform across
backends. -/
theorem result_fields_empty_string_defaults (fts_results vector_results : List Row) (n k : Nat) :
    (∀ o ∈ rrf fts_results vector_results n k,
      ∃ r : Row, (r ∈ fts_results ∨ r ∈ vector_results) ∧
        o.title = r.title.getD "" ∧ o.summary = r.summary.getD "" ∧
        o.src = r.src.getD "") ∧
    (∀ (rows : List MRow), ∀ o ∈ mysqlShape rows,
      ∃ m ∈ rows, o.title = m.title.getD "" ∧ o.summary = m.summary.getD "" ∧
        o.src = m.src.getD "") := by
  constructor
  · intro o ho
    rw [rrf, List.mem_map] at ho
    obtain ⟨p, hp, rfl⟩ := ho
    have hp2 : p ∈ (rrfState fts_results vector_results k).scores := by
      have h1 : p ∈ (rrfState fts_results vector_results k).scores.insertionSort scoreDesc :=
        (List.take_sublist n _).subset hp
      exact (List.perm_insertionSort scoreDesc _).subset h1
    have hkey : p.1 ∈ keysOf (rrfState fts_results vector_results k).cache := by
      rw [rrfState_cache_keys, ← rrfState_scores_keys]
      exact List.mem_map_of_mem Prod.fst hp2
    obtain ⟨v, hv2⟩ := Option.isSome_iff_exists.mp (dictGet?_isSome_of_mem_keys _ _ hkey)
    have hspec := rrfState_cache_spec fts_results vector_results k p.1 v hv2
    have hout : mkOut (cacheGet (rrfState fts_results vector_results k).cache p.1) p.2
        = mkOut v p.2 := by
      rw [cacheGet, hv2]
      rfl
    rw [hout]
    exact ⟨v, hspec.2, rfl, rfl, rfl⟩
  · intro rows o ho
    rw [mysqlShape, List.mem_map] at ho
    obtain ⟨m, hm, rfl⟩ := ho
    exact ⟨m, hm, rfl, rfl, rfl⟩

theorem round6_one : round6 1 = 1 := by
  have h : round ((1 : ℚ) * 1000000) = 1000000 := by
    rw [one_mul, show ((1000000 : ℚ)) = ((1000000 : ℤ) : ℚ) by norm_num, round_intCast]
  rw [round6, h]
  norm_num

/-- C7: when the FULLTEXT query raises (index missing or malformed query),
MySQLBackend.search does not return an error: it runs the LIKE fallback
over the same category-filtered set, and every returned record matches the
category filter, matches the query as a substring of title, content or
summary, and carries the identical nominal score 1.0 instead of a
relevance ranking. -/
theorem mysql_fallback_on_fts_failure (table : List MemRow) (q : String) (n : Nat)
    (category : Option String) (full : Bool) :
    ∀ o ∈ mysqlSearch (Except.error ()) table q n category full,
      o.score = 1 ∧ ∃ r ∈ table, o.id = r.id ∧ categoryOk r category = true ∧
        (likeContains r.title q || likeContains r.content q || likeContains r.summary q)
          = true := by
  intro o ho
  simp only [mysqlSearch] at ho
  rw [mysqlShape, List.mem_map] at ho
  obtain ⟨m, hm, rfl⟩ := ho
  rw [likeFallbackRows, List.mem_map] at hm
  obtain ⟨r, hr, rfl⟩ := hm
  have hr2 : r ∈ table.filter (fun r =>
      (likeContains r.title q || likeContains r.content q || likeContains r.summary q)
      && categoryOk r category) := (List.take_sublist n _).subset hr
  obtain ⟨hmem, hcond⟩ := List.mem_filter.mp hr2
  obtain ⟨hlike, hcat⟩ := (Bool.and_eq_true _ _).mp hcond
  exact ⟨round6_one, r, hmem, rfl, hcat, hlike⟩

theorem mysql_fallback_on_fts_failure_witness :
    (mysqlShapeRow fbMRowDemo).score = 1 ∧ ∃ r ∈ [fbMemRowDemo],
      (mysqlShapeRow fbMRowDemo).id = r.id ∧ categoryOk r none = true ∧
      (likeContains r.title "" || likeContains r.content "" || likeContains r.summary "")
        = true :=
  mysql_fallback_on_fts_failure [fbMemRowDemo] "" 5 none false (mysqlShapeRow fbMRowDemo)
    (List.mem_singleton_self _)

theorem fts_leg_rows_satisfy_category_filter
    (table : List SMemRow) (ftsMatch : SMemRow → Bool) (ftsRank : SMemRow → ℚ)
    (category : Option String) :
    ∀ r ∈ ((table.filter (fun x => ftsMatch x && sCategoryOk x category)).insertionSort
        (ascBy ftsRank)).take 50,
      sCategoryOk r category = true := by
  intro r hr
  have h1 : r ∈ (table.filter (fun x => ftsMatch x && sCategoryOk x category)).insertionSort
      (ascBy ftsRank) := (List.take_sublist 50 _).subset hr
  have h2 := (List.perm_insertionSort (ascBy ftsRank) _).subset h1
  have h3 := (List.mem_filter.mp h2).2
  exact ((Bool.and_eq_true _ _).mp h3).2

/-- C5: the claim fails on the SQLite backend. Evaluating the code at the
failing input: a hybrid search with category filter "a" over the two-row
table still places r5b, whose category is "b", into the vector leg's
candidate list, because the vector query (WHERE v.embedding MATCH ?
ORDER BY v.distance LIMIT 50) carries no category clause, while the FTS
leg filters by category. The legs therefore feed fusion mismatched
candidate pools. -/
theorem sqlite_vector_leg_ignores_category_filter :
    ∃ r ∈ (sqliteSearchLegs [r5a, r5b] (fun _ => true) (fun _ => 0) true
        (some (fun r => (r.id : ℚ))) (fun _ => true) (some "a")).2,
      sCategoryOk r (some "a") = false := by
  refine ⟨r5b, ?_, ?_⟩
  · show r5b ∈ sqliteVectorLeg [r5a, r5b] (fun _ => true) (fun r => (r.id : ℚ))
    have hord : ascBy (fun r : SMemRow => (r.id : ℚ)) r5a r5b := by
      show ((1 : Nat) : ℚ) ≤ ((2 : Nat) : ℚ)
      norm_num
    rw [sqliteVectorLeg]
    simp only [List.filter_true, List.insertionSort, List.orderedInsert, if_pos hord]
    simp
  · decide

/-- C6: the vector-capability state of a SQLite backend instance moves
exactly once from unprobed (None) to available or unavailable (some true
or some false) and never reverts: over any sequence of _connect calls the
probe runs at most once, the first call records its load outcome — a
failed load is recorded as unavailable rather than raised — and from a
cached state every later call returns the cached value without probing. -/
theorem vec_capability_probe_once (outcomes : List Bool) :
    (vecProbeRun none outcomes).2 ≤ 1 ∧
    (∀ o os, outcomes = o :: os → (vecProbeRun none outcomes).1 = some o) ∧
    (∀ (b : Bool) (os : List Bool),
      (vecProbeRun (some b) os).1 = some b ∧ (vecProbeRun (some b) os).2 = 0) := by
  have hsome : ∀ (b : Bool) (os : List Bool),
      (vecProbeRun (some b) os).1 = some b ∧ (vecProbeRun (some b) os).2 = 0 := by
    intro b os
    induction os with
    | nil => exact ⟨rfl, rfl⟩
    | cons o os ih =>
        simp only [vecProbeRun, vecProbe]
        exact ⟨ih.1, by simpa using ih.2⟩
  refine ⟨?_, ?_, hsome⟩
  · cases outcomes with
    | nil => simp [vecProbeRun]
    | cons o os =>
        simp only [vecProbeRun, vecProbe]
        have h2 := (hsome o os).2
        simp [h2]
  · intro o os h
    subst h
    simp only [vecProbeRun, vecProbe]
    exact (hsome o os).1

theorem startup_not_priority_key_ordered :
    sqliteStartup (Except.ok startupDemoRows) ≠ startupSpecText startupDemoRows := by
  have hab : startupKey ⟨"a", 2, "X"⟩ ⟨"b", 1, "Y"⟩ := by
    show ("a" : String) ≤ "b"
    rw [String.le_iff_toList_le]
    decide
  have hnpk : ¬ startupPK ⟨"a", 2, "X"⟩ ⟨"b", 1, "Y"⟩ := by
    rw [startupPK]
    push_neg
    refine ⟨by norm_num, by norm_num⟩
  have h1 : sqliteStartup (Except.ok startupDemoRows) = "X\nY" := by
    simp only [sqliteStartup, sqliteStartupRows, startupDemoRows, List.insertionSort,
      List.orderedInsert, if_pos hab]
    rfl
  have h2 : startupSpecText startupDemoRows = "Y\nX" := by
    simp only [startupSpecText, startupDemoRows, List.insertionSort,
      List.orderedInsert, if_neg hnpk]
    rfl
  rw [h1, h2]
  decide

/-- C9 amended: postgres startup() returns the concatenation of the
identity rows ordered by priority then key (and the empty string when no
rows are found or retrieval fails); the sqlite and mysql startup queries
order by key alone — their startup tables have no priority column — and
also return the empty string when no rows are found or retrieval fails. -/
theorem startup_text_by_backend (rows : List StartupRow) :
    ((rows.insertionSort startupPK).Perm rows ∧
      (rows.insertionSort startupPK).Sorted startupPK ∧
      pgStartup (Except.ok rows) = startupSpecText rows) ∧
    ((sqliteStartupRows rows).Perm rows ∧ (sqliteStartupRows rows).Sorted startupKey) ∧
    ((mysqlStartupRows rows).Perm rows ∧ (mysqlStartupRows rows).Sorted startupKey) ∧
    (pgStartup (Except.error ()) = "" ∧ sqliteStartup (Except.error ()) = "" ∧
      mysqlStartup (Except.error ()) = "") ∧
    (pgStartup (Except.ok []) = "" ∧ sqliteStartup (Except.ok []) = "" ∧
      mysqlStartup (Except.ok []) = "") :=
  ⟨⟨List.perm_insertionSort _ _, List.sorted_insertionSort _ _, rfl⟩,
    ⟨List.perm_insertionSort _ _, List.sorted_insertionSort _ _⟩,
    ⟨List.perm_insertionSort _ _, List.sorted_insertionSort _ _⟩,
    ⟨rfl, rfl, rfl⟩, ⟨rfl, rfl, rfl⟩⟩

end ShadowDB
